import Mathlib

/-!
Verification development for the Unlimited-WIKI-page repository.

The file embeds, as executable Lean definitions, the logic of:
- the topic-navigation state machine (`changeTopic`, `handlePrevious`,
  `handleNext` in the main app component);
- the fallback ASCII-art box (`createFallbackArt`);
- the interactive-text renderer (`InteractiveContent` and
  `renderInteractiveWords` in the content-display component);
- the response validation of `getStructuredAnswer` (geminiService);
- the random-topic picker (`handleRandom` and its word list).

JavaScript strings are modelled as Lean `String` (a wrapper around
`List Char`); `String.prototype.toLowerCase`, `trim`, `split(/(\s+)/)`,
`indexOf`, `slice`, `repeat` and `Array.prototype.findIndex` are modelled
by the explicit character-list functions below, so that every definition
evaluates by kernel reduction.
-/

/-- Models JavaScript `String.prototype.toLowerCase` (character-wise
lowercasing; faithful on the ASCII strings this app compares). -/
def toLowerStr (s : String) : String :=
  String.mk (s.data.map Char.toLower)

/-- Models JavaScript `String.prototype.trim`: remove leading and trailing
whitespace characters. -/
def trimStr (s : String) : String :=
  String.mk (((s.data.dropWhile Char.isWhitespace).reverse.dropWhile
    Char.isWhitespace).reverse)

/-- Models JavaScript `array.slice(0, e)`: with a non-negative end index it
keeps the first `e` elements, with a negative end index it counts from the
end of the array. -/
def jsSliceTo (l : List String) (e : Int) : List String :=
  if e < 0 then l.take (l.length - (-e).toNat) else l.take e.toNat

/-- Models JavaScript `array[i]` for a string array, with `""` standing in
for the `undefined` produced by an out-of-range index. -/
def jsIndex (l : List String) (i : Int) : String :=
  if i < 0 then "" else l.getD i.toNat ""

/-- Models JavaScript `array.findIndex(p)`: index of the first element
satisfying `p`, or `-1` when there is none. -/
def jsFindIndex (p : String → Bool) (l : List String) : Int :=
  match l.findIdx? p with
  | some k => (k : Int)
  | none => -1

/-- Navigation state of the app component: the `history` array, the
`historyIndex` cursor (an integer, `-1` initially) and the `currentTopic`
string (`''` initially). -/
structure NavState where
  history : List String
  historyIndex : Int
  currentTopic : String
deriving Repr, DecidableEq

/-- Initial navigation state of the app: empty history, cursor `-1`,
empty current topic. -/
def initState : NavState := ⟨[], -1, ""⟩

/-- Embeds `changeTopic` from the app component: trim the new topic; if it
is non-empty and differs case-insensitively from the current topic, drop
every history entry past the cursor, append the trimmed topic, point the
cursor at it and make it current; otherwise leave the state unchanged. -/
def changeTopic (s : NavState) (newTopic : String) : NavState :=
  let trimmedTopic := trimStr newTopic
  if trimmedTopic ≠ "" ∧ toLowerStr trimmedTopic ≠ toLowerStr s.currentTopic then
    let newHistory := jsSliceTo s.history (s.historyIndex + 1) ++ [trimmedTopic]
    { history := newHistory
      historyIndex := (newHistory.length : Int) - 1
      currentTopic := trimmedTopic }
  else s

/-- Embeds `handlePrevious` from the app component: when the cursor is
positive, decrement it and set the current topic to the history entry at
the new cursor; otherwise do nothing. -/
def handlePrevious (s : NavState) : NavState :=
  if 0 < s.historyIndex then
    let newIndex := s.historyIndex - 1
    { s with historyIndex := newIndex, currentTopic := jsIndex s.history newIndex }
  else s

/-- Embeds `handleNext` from the app component: when the cursor is below
the last history index, increment it and set the current topic to the
history entry at the new cursor; otherwise do nothing. -/
def handleNext (s : NavState) : NavState :=
  if s.historyIndex < (s.history.length : Int) - 1 then
    let newIndex := s.historyIndex + 1
    { s with historyIndex := newIndex, currentTopic := jsIndex s.history newIndex }
  else s

/-- User-level operations that drive the navigation state. -/
inductive NavOp where
  | push (topic : String)
  | back
  | forward
deriving Repr, DecidableEq

/-- Applies one navigation operation to a state. -/
def applyOp (s : NavState) : NavOp → NavState
  | .push t => changeTopic s t
  | .back => handlePrevious s
  | .forward => handleNext s

/-- Runs a sequence of navigation operations from the initial state. -/
def runOps (ops : List NavOp) : NavState :=
  ops.foldl applyOp initState

/-- Models JavaScript `'c'.repeat(n)` for a single character. -/
def strRepeat (c : Char) (n : Nat) : String :=
  String.mk (List.replicate n c)

/-- The `displayableTopic` local of `createFallbackArt`: topics longer
than 20 characters are cut to 17 characters plus an ellipsis
(`topic.substring(0, 17) + '...'`). -/
def displayableTopic (topic : String) : String :=
  if 20 < topic.length then String.mk (topic.data.take 17) ++ "..." else topic

/-- Embeds `createFallbackArt` from the app component: the deterministic
3-line box substituted when ASCII-art generation fails. `topic.length`
and `topic.substring(0, 17)` are modelled at character granularity. -/
def createFallbackArt (topic : String) : String :=
  let paddedTopic := " " ++ displayableTopic topic ++ " "
  let topBorder := "┌" ++ strRepeat '─' paddedTopic.length ++ "┐"
  let middle := "│" ++ paddedTopic ++ "│"
  let bottomBorder := "└" ++ strRepeat '─' paddedTopic.length ++ "┘"
  topBorder ++ "\n" ++ middle ++ "\n" ++ bottomBorder

/-- Resource link shape returned by the structured-answer service. -/
structure Link where
  url : String
  title : String
deriving Repr, DecidableEq

/-- Validated structured-answer payload. -/
structure StructuredAnswer where
  explanation : String
  suggestion : String
  links : List Link
deriving Repr, DecidableEq

/-- Parsed (but not yet validated) JSON response for the structured-answer
request. `none` in a string field stands for a missing / `null` /
`undefined` field; `none` in `links` stands for a field that is missing or
is not an array. -/
structure ParsedAnswer where
  explanation : Option String
  suggestion : Option String
  links : Option (List Link)
deriving Repr, DecidableEq

/-- Models JavaScript falsiness of an optional string field: missing,
`null`, `undefined` and `''` are falsy. -/
def jsFalsyStr : Option String → Bool
  | none => true
  | some s => s = ""

/-- Embeds the response-shape check of `getStructuredAnswer`
(geminiService): the parsed data is rejected exactly when
`!parsedData.explanation || !parsedData.suggestion ||
!Array.isArray(parsedData.links)`; otherwise it is returned as is. -/
def validateStructuredAnswer (p : ParsedAnswer) : Except String StructuredAnswer :=
  if jsFalsyStr p.explanation || jsFalsyStr p.suggestion || p.links.isNone then
    .error "Invalid response structure received from API."
  else
    .ok { explanation := p.explanation.getD ""
          suggestion := p.suggestion.getD ""
          links := p.links.getD [] }

/-- Word list `PREDEFINED_WORDS` of the app component. -/
def PREDEFINED_WORDS : List String := [
  "Balance", "Harmony", "Discord", "Unity", "Fragmentation", "Clarity",
  "Ambiguity", "Presence", "Absence", "Creation", "Destruction", "Light",
  "Shadow", "Beginning", "Ending", "Rising", "Falling", "Connection",
  "Isolation", "Hope", "Despair",
  "Order and chaos", "Light and shadow", "Sound and silence",
  "Form and formlessness", "Being and nonbeing", "Presence and absence",
  "Motion and stillness", "Unity and multiplicity", "Finite and infinite",
  "Sacred and profane", "Memory and forgetting", "Question and answer",
  "Search and discovery", "Journey and destination", "Dream and reality",
  "Time and eternity", "Self and other", "Known and unknown",
  "Spoken and unspoken", "Visible and invisible",
  "Zigzag", "Waves", "Spiral", "Bounce", "Slant", "Drip", "Stretch",
  "Squeeze", "Float", "Fall", "Spin", "Melt", "Rise", "Twist", "Explode",
  "Stack", "Mirror", "Echo", "Vibrate",
  "Gravity", "Friction", "Momentum", "Inertia", "Turbulence", "Pressure",
  "Tension", "Oscillate", "Fractal", "Quantum", "Entropy", "Vortex",
  "Resonance", "Equilibrium", "Centrifuge", "Elastic", "Viscous",
  "Refract", "Diffuse", "Cascade", "Levitate", "Magnetize", "Polarize",
  "Accelerate", "Compress", "Undulate",
  "Liminal", "Ephemeral", "Paradox", "Zeitgeist", "Metamorphosis",
  "Synesthesia", "Recursion", "Emergence", "Dialectic", "Apophenia",
  "Limbo", "Flux", "Sublime", "Uncanny", "Palimpsest", "Chimera", "Void",
  "Transcend", "Ineffable", "Qualia", "Gestalt", "Simulacra", "Abyssal",
  "Existential", "Nihilism", "Solipsism", "Phenomenology", "Hermeneutics",
  "Deconstruction", "Postmodern", "Absurdism", "Catharsis", "Epiphany",
  "Melancholy", "Nostalgia", "Longing", "Reverie", "Pathos", "Ethos",
  "Logos", "Mythos", "Anamnesis", "Intertextuality", "Metafiction",
  "Stream", "Lacuna", "Caesura", "Enjambment"]

/-- Embeds `UNIQUE_WORDS = [...new Set(PREDEFINED_WORDS)]`: duplicates
removed, first occurrences kept in order. -/
def UNIQUE_WORDS : List String := PREDEFINED_WORDS.eraseDups

/-- Embeds the word-selection logic of `handleRandom`: the random draw is
made explicit as the index `i` into `UNIQUE_WORDS`; when the drawn word
case-insensitively equals the current topic, the word after the first
case-insensitive occurrence of the drawn word (cyclically) is used
instead. -/
def handleRandomWord (i : Nat) (currentTopic : String) : String :=
  let randomWord := UNIQUE_WORDS.getD i ""
  if toLowerStr randomWord = toLowerStr currentTopic then
    let currentIndex := jsFindIndex (fun w => toLowerStr w == toLowerStr randomWord) UNIQUE_WORDS
    let nextIndex := (currentIndex + 1) % (UNIQUE_WORDS.length : Int)
    UNIQUE_WORDS.getD nextIndex.toNat ""
  else randomWord

/-- Stop-word set `STOP_WORDS` of the content-display component. -/
def STOP_WORDS : List String := [
  "a", "about", "an", "and", "are", "as", "at", "be", "by", "for", "from",
  "how", "i", "in", "is", "it", "of", "on", "or", "that", "the", "this",
  "to", "was", "what", "when", "where", "who", "will", "with"]

/-- Membership in the fixed trailing-punctuation set of the regex
`/[.,!?;:]+$/`. -/
def isPunctChar (c : Char) : Bool :=
  c = '.' || c = ',' || c = '!' || c = '?' || c = ';' || c = ':'

/-- Rendered output node of the interactive renderer, abstracting the
produced React elements to their observable content:
- `text s` is a plain fragment whose visible text is `s`;
- `wordButton w p` is a clickable unit whose click callback receives `w`,
  immediately followed (outside the clickable unit) by the punctuation
  `p`; its visible text is `w ++ p`;
- `anchor t u` is an `<a href=u>` element whose visible text is `t`. -/
inductive RNode where
  | text (s : String)
  | wordButton (word punct : String)
  | anchor (title url : String)
deriving Repr, DecidableEq

/-- Visible text of one rendered node. -/
def RNode.visible : RNode → String
  | .text s => s
  | .wordButton w p => w ++ p
  | .anchor t _ => t

/-- Concatenated visible text of a rendered node list. -/
def visibleNodes (l : List RNode) : String :=
  (l.map RNode.visible).foldr (· ++ ·) ""

/-- Helper for `jsSplitWs`: alternately peel a maximal run of
non-whitespace and a maximal run of whitespace off the front of the
character list. The fuel argument only serves termination; it is
inessential whenever it is at least the list length. -/
def splitWsAux : Nat → List Char → List (List Char)
  | 0, cs => [cs]
  | fuel + 1, cs =>
    let w := cs.takeWhile (fun c => !c.isWhitespace)
    let r := cs.dropWhile (fun c => !c.isWhitespace)
    match r with
    | [] => [w]
    | _ :: _ =>
      let run := r.takeWhile Char.isWhitespace
      let rest := r.dropWhile Char.isWhitespace
      w :: run :: splitWsAux fuel rest

/-- Models JavaScript `text.split(/(\s+)/)`: the text alternates between
(possibly empty) non-whitespace segments and captured whitespace runs,
starting and ending with a non-whitespace segment. -/
def jsSplitWs (text : String) : List String :=
  (splitWsAux text.data.length text.data).map String.mk

/-- Trailing punctuation of a token, as matched by `/[.,!?;:]+$/`: the
maximal suffix of characters from the fixed set. -/
def tokenPunct (part : String) : String :=
  String.mk (part.data.reverse.takeWhile isPunctChar).reverse

/-- The token with its trailing punctuation removed (`part.slice(0,
-punctuation.length)`). -/
def tokenWord (part : String) : String :=
  String.mk (part.data.reverse.dropWhile isPunctChar).reverse

/-- Embeds the per-token body of the `parts.forEach` loop in
`renderInteractiveWords`: whitespace-only (or empty) parts stay plain
text; otherwise trailing punctuation is split off, and the remaining word
is rendered plain when it is empty or a stop word (lower-cased), and as a
clickable unit followed by the punctuation otherwise. -/
def renderToken (part : String) : RNode :=
  if trimStr part = "" then .text part
  else
    let punctuation := tokenPunct part
    let word := tokenWord part
    if STOP_WORDS.contains (toLowerStr word) || word = "" then .text part
    else .wordButton word punctuation

/-- Embeds `renderInteractiveWords` of the content-display component:
split on whitespace (keeping it) and render each part. -/
def renderInteractiveWords (text : String) : List RNode :=
  (jsSplitWs text).map renderToken

/-- Intermediate fragment of the link-splicing pass (`contentParts` in
`InteractiveContent`): either a still-plain string or an already-spliced
anchor element. -/
inductive Frag where
  | str (s : String)
  | anchor (title url : String)
deriving Repr, DecidableEq

/-- Visible text of one intermediate fragment. -/
def Frag.visible : Frag → String
  | .str s => s
  | .anchor t _ => t

/-- Models JavaScript `s.indexOf(pat)` combined with the two
`substring` calls of the splice: the decomposition of `s` around the
FIRST occurrence of `pat`, or `none` when `pat` does not occur. -/
def findSplit (pat : List Char) : List Char → Option (List Char × List Char)
  | [] => if pat.isPrefixOf ([] : List Char) then some ([], []) else none
  | c :: cs =>
    if pat.isPrefixOf (c :: cs) then some ([], (c :: cs).drop pat.length)
    else (findSplit pat cs).map (fun ba => (c :: ba.1, ba.2))

/-- The up-to-three replacement pieces for a spliced link: the non-empty
text before the match, the anchor, the non-empty text after the match
(`if (before) result.push(before)` drops empty pieces). -/
def embedPieces (link : Link) (b a : List Char) : List Frag :=
  (if b.isEmpty then [] else [Frag.str (String.mk b)]) ++
    [Frag.anchor link.title link.url] ++
    (if a.isEmpty then [] else [Frag.str (String.mk a)])

/-- Embeds one iteration of the `for (const link of sortedLinks)` loop
body (the `flatMap` with its `linkPlaced` flag): scan the fragments in
order; the first string fragment containing the link's title is replaced
by `embedPieces` at the first occurrence, and every fragment after the
placement is kept unchanged. -/
def embedLink (link : Link) : List Frag → List Frag
  | [] => []
  | Frag.anchor t u :: ps => Frag.anchor t u :: embedLink link ps
  | Frag.str s :: ps =>
    match findSplit link.title.data s.data with
    | none => Frag.str s :: embedLink link ps
    | some (b, a) => embedPieces link b a ++ ps

/-- One step of the link-splicing fold: links whose URL is already in the
used set are skipped (`if (usedLinks.has(link.url)) continue`). -/
def linkStep (usedLinks : List String) (ps : List Frag) (link : Link) : List Frag :=
  if link.url ∈ usedLinks then ps else embedLink link ps

/-- Models the stable JavaScript `[...links].sort((a, b) =>
b.title.length - a.title.length)`: a stable sort by descending title
length (stable sorts for a fixed total preorder agree, so insertion sort
is an exact model). -/
def sortLinks (links : List Link) : List Link :=
  links.insertionSort (fun x y => y.title.length ≤ x.title.length)

/-- Embeds the first pass of `InteractiveContent`: fold the sorted links
over the fragment list, starting from the full content as one string
fragment. -/
def linkPass (usedLinks : List String) (links : List Link) (ps : List Frag) : List Frag :=
  (sortLinks links).foldl (linkStep usedLinks) ps

/-- Embeds the second pass of `InteractiveContent`: string fragments are
tokenized into interactive words, anchors pass through. -/
def renderPart : Frag → List RNode
  | .str s => renderInteractiveWords s
  | .anchor t u => [RNode.anchor t u]

/-- Embeds `InteractiveContent`: the link-splicing pass over the single
initial fragment, then word tokenization of the remaining strings. -/
def interactiveContent (content : String) (links : List Link)
    (usedLinks : List String) : List RNode :=
  (linkPass usedLinks links [Frag.str content]).flatMap renderPart

/-! ### String and fragment helper lemmas -/

/-- Appending two wrapped character lists appends the lists. -/
theorem stringMk_append (a b : List Char) :
    String.mk a ++ String.mk b = String.mk (a ++ b) := rfl

/-- Concatenated visible text of a fragment list. -/
def visibleFrags (l : List Frag) : String :=
  (l.map Frag.visible).foldr (· ++ ·) ""

theorem visibleNodes_nil : visibleNodes [] = "" := rfl

theorem visibleNodes_cons (n : RNode) (l : List RNode) :
    visibleNodes (n :: l) = n.visible ++ visibleNodes l := rfl

theorem visibleNodes_append (l₁ l₂ : List RNode) :
    visibleNodes (l₁ ++ l₂) = visibleNodes l₁ ++ visibleNodes l₂ := by
  induction l₁ with
  | nil => rw [List.nil_append, visibleNodes_nil, String.empty_append]
  | cons n t ih =>
    rw [List.cons_append, visibleNodes_cons, visibleNodes_cons, ih,
      String.append_assoc]

theorem visibleFrags_nil : visibleFrags [] = "" := rfl

theorem visibleFrags_cons (f : Frag) (l : List Frag) :
    visibleFrags (f :: l) = f.visible ++ visibleFrags l := rfl

theorem visibleFrags_append (l₁ l₂ : List Frag) :
    visibleFrags (l₁ ++ l₂) = visibleFrags l₁ ++ visibleFrags l₂ := by
  induction l₁ with
  | nil => rw [List.nil_append, visibleFrags_nil, String.empty_append]
  | cons n t ih =>
    rw [List.cons_append, visibleFrags_cons, visibleFrags_cons, ih,
      String.append_assoc]

/-! ### Tokenization round-trip -/

/-- Splitting off the trailing punctuation and reattaching it restores the
token. -/
theorem tokenWord_append_tokenPunct (part : String) :
    tokenWord part ++ tokenPunct part = part := by
  apply String.ext
  show (part.data.reverse.dropWhile isPunctChar).reverse ++
      (part.data.reverse.takeWhile isPunctChar).reverse = part.data
  rw [← List.reverse_append, List.takeWhile_append_dropWhile,
    List.reverse_reverse]

/-- Every token renders with its exact source text visible. -/
theorem renderToken_visible (part : String) :
    (renderToken part).visible = part := by
  unfold renderToken
  split
  · rfl
  · dsimp only
    split
    · rfl
    · exact tokenWord_append_tokenPunct part

theorem visibleNodes_map_renderToken (chunks : List (List Char)) :
    visibleNodes (chunks.map (fun cs => renderToken (String.mk cs))) =
      String.mk chunks.flatten := by
  induction chunks with
  | nil => rfl
  | cons c t ih =>
    rw [List.map_cons, visibleNodes_cons, ih,
      renderToken_visible, List.flatten_cons, stringMk_append]

/-- The first element surviving `dropWhile` fails the predicate. -/
theorem dropWhileHeadNot {α : Type} {p : α → Bool} :
    ∀ {l : List α} {c : α} {cs : List α}, l.dropWhile p = c :: cs → p c = false := by
  intro l
  induction l with
  | nil => intro c cs h; cases h
  | cons a t ih =>
    intro c cs h
    rw [List.dropWhile_cons] at h
    split at h
    · exact ih h
    · rename_i hp
      cases h
      simpa using hp

/-- The whitespace splitter concatenates back to its input, given enough
fuel. -/
theorem splitWsAux_flatten (fuel : Nat) (cs : List Char)
    (h : cs.length ≤ fuel) : (splitWsAux fuel cs).flatten = cs := by
  induction fuel generalizing cs with
  | zero =>
    have hcs : cs = [] := List.length_eq_zero.mp (Nat.le_zero.mp h)
    subst hcs
    rfl
  | succ n ih =>
    have hwr : cs.takeWhile (fun c => !c.isWhitespace) ++
        cs.dropWhile (fun c => !c.isWhitespace) = cs :=
      List.takeWhile_append_dropWhile _ _
    unfold splitWsAux
    cases hr : cs.dropWhile (fun c => !c.isWhitespace) with
    | nil =>
      rw [hr] at hwr
      simpa using hwr
    | cons c cs₂ =>
      have hrun : (c :: cs₂).takeWhile Char.isWhitespace ++
          (c :: cs₂).dropWhile Char.isWhitespace = c :: cs₂ :=
        List.takeWhile_append_dropWhile _ _
      have hchd : Char.isWhitespace c := by
        have h0 := dropWhileHeadNot hr
        simpa using h0
      have hrest_len : ((c :: cs₂).dropWhile Char.isWhitespace).length ≤ n := by
        have h1 : ((c :: cs₂).dropWhile Char.isWhitespace).length =
            (cs₂.dropWhile Char.isWhitespace).length := by
          rw [List.dropWhile_cons_of_pos hchd]
        have h2 : (cs₂.dropWhile Char.isWhitespace).length ≤ cs₂.length :=
          (List.dropWhile_sublist _).length_le
        have h3 : (c :: cs₂).length ≤ cs.length := by
          rw [← hr]; exact (List.dropWhile_sublist _).length_le
        have h4 : (c :: cs₂).length = cs₂.length + 1 := by
          simp [List.length_cons]
        omega
      rw [hr] at hwr
      simp only [List.flatten_cons]
      rw [ih _ hrest_len, hrun, hwr]

/-- The rendered interactive words of a text concatenate back to the
text. -/
theorem renderInteractiveWords_visible (text : String) :
    visibleNodes (renderInteractiveWords text) = text := by
  unfold renderInteractiveWords jsSplitWs
  rw [List.map_map]
  simp only [Function.comp_def]
  rw [visibleNodes_map_renderToken]
  rw [splitWsAux_flatten _ _ (Nat.le_refl _)]

/-! ### Substring search -/

/-- Substring containment at the character level. -/
def containsSub (pat s : List Char) : Prop :=
  ∃ b a, s = b ++ pat ++ a

/-- Soundness of `findSplit`: a found split decomposes the string around
the pattern. -/
theorem findSplit_eq (pat : List Char) : ∀ (s : List Char) {b a : List Char},
    findSplit pat s = some (b, a) → b ++ pat ++ a = s := by
  intro s
  induction s with
  | nil =>
    intro b a h
    unfold findSplit at h
    split at h
    · rename_i hp
      have hpat : pat = [] := List.prefix_nil.mp ( List.isPrefixOf_iff_prefix.mp hp)
      simp only [Option.some.injEq, Prod.mk.injEq] at h
      obtain ⟨hb, ha⟩ := h
      subst hb; subst ha; subst hpat
      rfl
    · cases h
  | cons c cs ih =>
    intro b a h
    unfold findSplit at h
    split at h
    · rename_i hp
      obtain ⟨t, ht⟩ := List.isPrefixOf_iff_prefix.mp hp
      simp only [Option.some.injEq, Prod.mk.injEq] at h
      obtain ⟨hb, ha⟩ := h
      subst hb
      have hdrop : (c :: cs).drop pat.length = t := by
        rw [← ht, List.drop_left]
      rw [hdrop] at ha
      subst ha
      simpa using ht
    · cases hfs : findSplit pat cs with
      | none => rw [hfs] at h; cases h
      | some ba =>
        obtain ⟨b₀, a₀⟩ := ba
        rw [hfs] at h
        simp only [Option.map_some', Option.some.injEq, Prod.mk.injEq] at h
        obtain ⟨hb, ha⟩ := h
        subst hb; subst ha
        have := ih hfs
        rw [List.cons_append, List.cons_append, this]

/-- Minimality of `findSplit`: the returned prefix is the shortest over
all decompositions (the match is the FIRST occurrence, as with
`indexOf`). -/
theorem findSplit_min (pat : List Char) : ∀ (s : List Char) {b a : List Char},
    findSplit pat s = some (b, a) →
    ∀ b₂ a₂, s = b₂ ++ pat ++ a₂ → b.length ≤ b₂.length := by
  intro s
  induction s with
  | nil =>
    intro b a h b₂ a₂ _
    unfold findSplit at h
    split at h
    · simp only [Option.some.injEq, Prod.mk.injEq] at h
      obtain ⟨hb, _⟩ := h
      subst hb
      exact Nat.zero_le _
    · cases h
  | cons c cs ih =>
    intro b a h b₂ a₂ hdec
    unfold findSplit at h
    split at h
    · simp only [Option.some.injEq, Prod.mk.injEq] at h
      obtain ⟨hb, _⟩ := h
      subst hb
      exact Nat.zero_le _
    · rename_i hnp
      cases b₂ with
      | nil =>
        exfalso
        apply hnp
        apply List.isPrefixOf_iff_prefix.mpr
        exact ⟨a₂, by simpa using hdec.symm⟩
      | cons c₂ b₃ =>
        cases hfs : findSplit pat cs with
        | none => rw [hfs] at h; cases h
        | some ba =>
          obtain ⟨b₀, a₀⟩ := ba
          rw [hfs] at h
          simp only [Option.map_some', Option.some.injEq, Prod.mk.injEq] at h
          obtain ⟨hb, _⟩ := h
          subst hb
          simp only [List.cons_append, List.cons.injEq] at hdec
          obtain ⟨_, hdec₂⟩ := hdec
          have := ih hfs b₃ a₂ hdec₂
          simpa [List.length_cons] using this

/-- Completeness of `findSplit`: a `none` result means the pattern does
not occur as a substring. -/
theorem findSplit_none (pat : List Char) : ∀ (s : List Char),
    findSplit pat s = none → ¬ containsSub pat s := by
  intro s
  induction s with
  | nil =>
    intro h hc
    obtain ⟨b, a, hba⟩ := hc
    unfold findSplit at h
    split at h
    · cases h
    · rename_i hnp
      apply hnp
      apply List.isPrefixOf_iff_prefix.mpr
      have hb : b = [] := by
        cases b with
        | nil => rfl
        | cons x xs => simp at hba
      subst hb
      have hpat : pat = [] := by
        cases pat with
        | nil => rfl
        | cons x xs => simp at hba
      subst hpat
      exact List.nil_prefix
  | cons c cs ih =>
    intro h hc
    obtain ⟨b, a, hba⟩ := hc
    unfold findSplit at h
    split at h
    · cases h
    · rename_i hnp
      cases b with
      | nil =>
        apply hnp
        apply List.isPrefixOf_iff_prefix.mpr
        exact ⟨a, by simpa using hba.symm⟩
      | cons c₀ b₁ =>
        simp only [List.cons_append, List.cons.injEq] at hba
        obtain ⟨_, hba₂⟩ := hba
        cases hfs : findSplit pat cs with
        | none => exact ih hfs ⟨b₁, a, hba₂⟩
        | some ba => rw [hfs] at h; simp at h

/-! ### Link splicing preserves visible text -/

theorem embedPieces_visible (link : Link) (b a : List Char) :
    visibleFrags (embedPieces link b a) =
      String.mk (b ++ link.title.data ++ a) := by
  apply String.ext
  cases b with
  | nil =>
    cases a with
    | nil =>
      simp [embedPieces, visibleFrags, Frag.visible, String.data_append]
    | cons x xs =>
      simp [embedPieces, visibleFrags, Frag.visible, String.data_append]
  | cons y ys =>
    cases a with
    | nil =>
      simp [embedPieces, visibleFrags, Frag.visible, String.data_append]
    | cons x xs =>
      simp [embedPieces, visibleFrags, Frag.visible, String.data_append]

/-- The link-splicing step preserves the concatenated visible text. -/
theorem embedLink_visible (link : Link) : ∀ (ps : List Frag),
    visibleFrags (embedLink link ps) = visibleFrags ps := by
  intro ps
  induction ps with
  | nil => rfl
  | cons p t ih =>
    cases p with
    | anchor ti u =>
      rw [show embedLink link (Frag.anchor ti u :: t) =
        Frag.anchor ti u :: embedLink link t from rfl]
      rw [visibleFrags_cons, visibleFrags_cons, ih]
    | str s =>
      rw [show embedLink link (Frag.str s :: t) =
        match findSplit link.title.data s.data with
        | none => Frag.str s :: embedLink link t
        | some (b, a) => embedPieces link b a ++ t from rfl]
      cases hfs : findSplit link.title.data s.data with
      | none =>
        rw [visibleFrags_cons, visibleFrags_cons, ih]
      | some ba =>
        obtain ⟨b, a⟩ := ba
        have hba := findSplit_eq link.title.data s.data hfs
        rw [visibleFrags_append, embedPieces_visible, hba]
        rw [visibleFrags_cons]
        congr 1

/-- The whole link-splicing fold preserves the concatenated visible
text. -/
theorem foldl_linkStep_visible (used : List String) :
    ∀ (links : List Link) (ps : List Frag),
    visibleFrags (links.foldl (linkStep used) ps) = visibleFrags ps := by
  intro links
  induction links with
  | nil => intro ps; rfl
  | cons l ls ih =>
    intro ps
    rw [List.foldl_cons, ih]
    unfold linkStep
    split
    · rfl
    · exact embedLink_visible l ps

/-- The word-tokenization pass preserves the concatenated visible text of
the fragments. -/
theorem flatMap_renderPart_visible : ∀ (ps : List Frag),
    visibleNodes (ps.flatMap renderPart) = visibleFrags ps := by
  intro ps
  induction ps with
  | nil => rfl
  | cons p t ih =>
    rw [List.flatMap_cons, visibleNodes_append, ih, visibleFrags_cons]
    congr 1
    cases p with
    | str s =>
      rw [show (Frag.str s).visible = s from rfl]
      exact renderInteractiveWords_visible s
    | anchor ti u =>
      rw [show renderPart (Frag.anchor ti u) = [RNode.anchor ti u] from rfl]
      rw [visibleNodes_cons, visibleNodes_nil, String.append_empty]
      rfl

/-- C1: for every input text, link list and used-URL set, the
concatenation of the visible text of all fragments produced by the
interactive renderer (link-splicing pass followed by word tokenization)
is the original input text, character for character; anchors
(`RNode.anchor`) and clickable units (`RNode.wordButton`) contribute
exactly their source substring via `RNode.visible`. -/
theorem claim1_render_roundtrip (content : String) (links : List Link)
    (usedLinks : List String) :
    visibleNodes (interactiveContent content links usedLinks) = content := by
  unfold interactiveContent linkPass
  rw [flatMap_renderPart_visible, foldl_linkStep_visible]
  rw [visibleFrags_cons, visibleFrags_nil, String.append_empty]
  rfl

/-! ### Tokenization properties -/

/-- The split-off trailing punctuation consists only of characters from
the fixed set `.,!?;:`. -/
theorem tokenPunct_all_punct (part : String) :
    (tokenPunct part).data.all isPunctChar = true := by
  apply List.all_eq_true.mpr
  intro c hc
  rw [show (tokenPunct part).data =
    (part.data.reverse.takeWhile isPunctChar).reverse from rfl] at hc
  exact List.mem_takeWhile_imp (List.mem_reverse.mp hc)

/-- The punctuation split is maximal: the remaining word does not end in a
character from the punctuation set. -/
theorem tokenWord_last_not_punct (part : String) :
    ∀ c, (tokenWord part).data.getLast? = some c → isPunctChar c = false := by
  intro c hc
  rw [show (tokenWord part).data =
    (part.data.reverse.dropWhile isPunctChar).reverse from rfl] at hc
  rw [List.getLast?_reverse] at hc
  obtain ⟨ys, hys⟩ := List.head?_eq_some_iff.mp hc
  exact dropWhileHeadNot hys

/-- Inversion for clickable tokens: a clickable unit only arises from the
final branch of `renderToken`, with the punctuation-stripped word, which
is non-empty and not a stop word. -/
theorem renderToken_wordButton_inv (part w p : String)
    (h : renderToken part = RNode.wordButton w p) :
    w = tokenWord part ∧ p = tokenPunct part ∧ w ≠ "" ∧
      STOP_WORDS.contains (toLowerStr w) = false := by
  unfold renderToken at h
  split at h
  · cases h
  · dsimp only at h
    split at h
    · cases h
    · rename_i hguard
      simp only [RNode.wordButton.injEq] at h
      obtain ⟨hw, hp⟩ := h
      subst hw; subst hp
      simp only [Bool.or_eq_true, decide_eq_true_eq, not_or] at hguard
      obtain ⟨hstop, hne⟩ := hguard
      exact ⟨rfl, rfl, hne, by simpa using hstop⟩

/-- C4: in word tokenization, every clickable unit produced by
`renderInteractiveWords` carries a non-empty word that is not a stop word
(lower-cased), together with its split-off trailing punctuation, which
consists only of characters from `.,!?;:` and is maximal (the word does
not end in such a character); the punctuation is reattached right after
the word, outside the clickable unit (`RNode.wordButton w p` renders as
`w ++ p` with click payload `w`). Conversely, every non-whitespace token
of the split either has an empty or stop-word remainder and is rendered
as plain text, or is rendered as exactly this clickable unit. -/
theorem claim4_tokenization (text : String) :
    (∀ node ∈ renderInteractiveWords text, ∀ w p,
      node = RNode.wordButton w p →
      w ≠ "" ∧ STOP_WORDS.contains (toLowerStr w) = false ∧
      p.data.all isPunctChar = true ∧
      (∀ c, w.data.getLast? = some c → isPunctChar c = false) ∧
      w ++ p = node.visible) ∧
    (∀ part ∈ jsSplitWs text, trimStr part ≠ "" →
      tokenWord part ++ tokenPunct part = part ∧
      ((tokenWord part = "" ∨
          STOP_WORDS.contains (toLowerStr (tokenWord part)) = true) →
        renderToken part = RNode.text part) ∧
      (tokenWord part ≠ "" →
        STOP_WORDS.contains (toLowerStr (tokenWord part)) = false →
        renderToken part = RNode.wordButton (tokenWord part) (tokenPunct part))) := by
  constructor
  · intro node hnode w p hwp
    obtain ⟨part, _, hpart⟩ := List.mem_map.mp hnode
    subst hpart
    obtain ⟨hw, hp, hne, hstop⟩ := renderToken_wordButton_inv part w p hwp
    subst hw; subst hp
    refine ⟨hne, hstop, tokenPunct_all_punct part,
      tokenWord_last_not_punct part, ?_⟩
    rw [hwp]
    rfl
  · intro part _ hws
    refine ⟨tokenWord_append_tokenPunct part, ?_, ?_⟩
    · intro hcase
      unfold renderToken
      split
      · rfl
      · dsimp only
        split
        · rfl
        · rename_i hguard
          exfalso
          simp only [Bool.or_eq_true, decide_eq_true_eq, not_or] at hguard
          rcases hcase with h0 | h0
          · exact hguard.2 h0
          · exact absurd h0 (by simpa using hguard.1)
    · intro hne hstop
      unfold renderToken
      split
      · rename_i h0; exact absurd h0 hws
      · dsimp only
        split
        · rename_i hguard
          simp only [Bool.or_eq_true, decide_eq_true_eq] at hguard
          rcases hguard with h0 | h0
          · rw [h0] at hstop; cases hstop
          · exact absurd h0 hne
        · rfl

/-! ### Link-splicing properties -/

/-- Recognizes anchor fragments. -/
def isAnchorFrag : Frag → Bool
  | .anchor _ _ => true
  | .str _ => false

/-- Number of anchor fragments in a fragment list. -/
def anchorCount (ps : List Frag) : Nat :=
  ps.countP isAnchorFrag

theorem anchorCount_embedPieces (link : Link) (b a : List Char) :
    anchorCount (embedPieces link b a) = 1 := by
  cases b with
  | nil =>
    cases a with
    | nil => rfl
    | cons x xs => rfl
  | cons y ys =>
    cases a with
    | nil => rfl
    | cons x xs => rfl

theorem anchorCount_append (l₁ l₂ : List Frag) :
    anchorCount (l₁ ++ l₂) = anchorCount l₁ + anchorCount l₂ :=
  List.countP_append _ _ _

/-- A link whose title occurs in no string fragment leaves the fragment
list unchanged. -/
theorem embedLink_no_occurrence (link : Link) : ∀ (ps : List Frag),
    (∀ s, Frag.str s ∈ ps → ¬ containsSub link.title.data s.data) →
    embedLink link ps = ps := by
  intro ps
  induction ps with
  | nil => intro _; rfl
  | cons p t ih =>
    intro h
    cases p with
    | anchor ti u =>
      rw [show embedLink link (Frag.anchor ti u :: t) =
        Frag.anchor ti u :: embedLink link t from rfl]
      rw [ih (fun s hs => h s (List.mem_cons_of_mem _ hs))]
    | str s =>
      have hnone : findSplit link.title.data s.data = none := by
        cases hfs : findSplit link.title.data s.data with
        | none => rfl
        | some ba =>
          obtain ⟨b, a⟩ := ba
          exfalso
          exact h s (List.mem_cons_self _ _)
            ⟨b, a, (findSplit_eq link.title.data s.data hfs).symm⟩
      rw [show embedLink link (Frag.str s :: t) =
        match findSplit link.title.data s.data with
        | none => Frag.str s :: embedLink link t
        | some (b, a) => embedPieces link b a ++ t from rfl]
      rw [hnone]
      rw [ih (fun s hs => h s (List.mem_cons_of_mem _ hs))]

/-- The splice happens in the FIRST string fragment containing the title,
replaces it by the up-to-three pieces, and leaves every fragment after
the placement (later occurrences of the title included) unchanged. -/
theorem embedLink_first_fragment (link : Link) :
    ∀ (p₁ : List Frag) (s : String) (p₂ : List Frag) (b a : List Char),
    (∀ t, Frag.str t ∈ p₁ → ¬ containsSub link.title.data t.data) →
    findSplit link.title.data s.data = some (b, a) →
    embedLink link (p₁ ++ Frag.str s :: p₂) =
      p₁ ++ embedPieces link b a ++ p₂ := by
  intro p₁
  induction p₁ with
  | nil =>
    intro s p₂ b a _ hfs
    rw [List.nil_append, List.nil_append]
    rw [show embedLink link (Frag.str s :: p₂) =
      match findSplit link.title.data s.data with
      | none => Frag.str s :: embedLink link p₂
      | some (b, a) => embedPieces link b a ++ p₂ from rfl]
    rw [hfs]
  | cons p t ih =>
    intro s p₂ b a h hfs
    cases p with
    | anchor ti u =>
      rw [List.cons_append]
      rw [show embedLink link (Frag.anchor ti u :: (t ++ Frag.str s :: p₂)) =
        Frag.anchor ti u :: embedLink link (t ++ Frag.str s :: p₂) from rfl]
      rw [ih s p₂ b a (fun x hx => h x (List.mem_cons_of_mem _ hx)) hfs]
      rfl
    | str s₀ =>
      have hnone : findSplit link.title.data s₀.data = none := by
        cases hfs₀ : findSplit link.title.data s₀.data with
        | none => rfl
        | some ba =>
          obtain ⟨b₀, a₀⟩ := ba
          exfalso
          exact h s₀ (List.mem_cons_self _ _)
            ⟨b₀, a₀, (findSplit_eq link.title.data s₀.data hfs₀).symm⟩
      rw [List.cons_append]
      rw [show embedLink link (Frag.str s₀ :: (t ++ Frag.str s :: p₂)) =
        match findSplit link.title.data s₀.data with
        | none => Frag.str s₀ :: embedLink link (t ++ Frag.str s :: p₂)
        | some (b, a) => embedPieces link b a ++ (t ++ Frag.str s :: p₂) from rfl]
      rw [hnone]
      rw [ih s p₂ b a (fun x hx => h x (List.mem_cons_of_mem _ hx)) hfs]
      rfl

/-- One link-splicing step embeds at most one new anchor, however many
times the title occurs. -/
theorem embedLink_anchorCount (link : Link) : ∀ (ps : List Frag),
    anchorCount (embedLink link ps) ≤ anchorCount ps + 1 := by
  intro ps
  induction ps with
  | nil => exact Nat.zero_le _
  | cons p t ih =>
    cases p with
    | anchor ti u =>
      rw [show embedLink link (Frag.anchor ti u :: t) =
        Frag.anchor ti u :: embedLink link t from rfl]
      rw [show anchorCount (Frag.anchor ti u :: embedLink link t) =
        anchorCount (embedLink link t) + 1 from by
          simp [anchorCount, List.countP_cons, isAnchorFrag]]
      rw [show anchorCount (Frag.anchor ti u :: t) =
        anchorCount t + 1 from by
          simp [anchorCount, List.countP_cons, isAnchorFrag]]
      omega
    | str s =>
      rw [show embedLink link (Frag.str s :: t) =
        match findSplit link.title.data s.data with
        | none => Frag.str s :: embedLink link t
        | some (b, a) => embedPieces link b a ++ t from rfl]
      cases hfs : findSplit link.title.data s.data with
      | none =>
        have h₁ : anchorCount (Frag.str s :: embedLink link t) =
            anchorCount (embedLink link t) := by
          simp [anchorCount, List.countP_cons, isAnchorFrag]
        have h₂ : anchorCount (Frag.str s :: t) = anchorCount t := by
          simp [anchorCount, List.countP_cons, isAnchorFrag]
        rw [h₁, h₂]
        omega
      | some ba =>
        obtain ⟨b, a⟩ := ba
        rw [anchorCount_append, anchorCount_embedPieces]
        have h₂ : anchorCount (Frag.str s :: t) = anchorCount t := by
          simp [anchorCount, List.countP_cons, isAnchorFrag]
        rw [h₂]
        omega

/-- C3: the link-splicing pass (i) processes the candidate links in
descending title-length order (a permutation of the input links), (ii)
skips links whose URL is in the used set, (iii) leaves the fragments
unchanged when the title occurs nowhere, (iv) splices into the first
string fragment containing the title, replacing it with the up-to-three
pieces and leaving everything after unchanged, (v) at the FIRST
occurrence of the title in that fragment, and (vi) adds at most one
anchor per link even if the title occurs several times. -/
theorem claim3_link_splicing (links : List Link) (used : List String) :
    List.Sorted (fun x y : Link => y.title.length ≤ x.title.length)
      (sortLinks links) ∧
    (sortLinks links).Perm links ∧
    (∀ l ps, l.url ∈ used → linkStep used ps l = ps) ∧
    (∀ (l : Link) (ps : List Frag),
      (∀ s, Frag.str s ∈ ps → ¬ containsSub l.title.data s.data) →
      embedLink l ps = ps) ∧
    (∀ (l : Link) (p₁ : List Frag) (s : String) (p₂ : List Frag)
        (b a : List Char),
      (∀ t, Frag.str t ∈ p₁ → ¬ containsSub l.title.data t.data) →
      findSplit l.title.data s.data = some (b, a) →
      embedLink l (p₁ ++ Frag.str s :: p₂) =
        p₁ ++ embedPieces l b a ++ p₂) ∧
    (∀ (pat : List Char) (s : List Char) (b a : List Char),
      findSplit pat s = some (b, a) →
      b ++ pat ++ a = s ∧ ∀ b₂ a₂, s = b₂ ++ pat ++ a₂ → b.length ≤ b₂.length) ∧
    (∀ (l : Link) (ps : List Frag),
      anchorCount (embedLink l ps) ≤ anchorCount ps + 1) := by
  refine ⟨?_, List.perm_insertionSort _ links, ?_, ?_, ?_, ?_, ?_⟩
  · haveI : IsTotal Link (fun x y : Link => y.title.length ≤ x.title.length) :=
      ⟨fun a b => Nat.le_total b.title.length a.title.length⟩
    haveI : IsTrans Link (fun x y : Link => y.title.length ≤ x.title.length) :=
      ⟨fun _ _ _ hab hbc => Nat.le_trans hbc hab⟩
    exact List.sorted_insertionSort _ links
  · intro l ps hl
    unfold linkStep
    simp [hl]
  · exact embedLink_no_occurrence
  · exact embedLink_first_fragment
  · intro pat s b a hfs
    exact ⟨findSplit_eq pat s hfs, findSplit_min pat s hfs⟩
  · exact embedLink_anchorCount

/-- Witness for C4: in `"The cat, runs fast."`, the token `"cat,"` becomes
a clickable unit with payload `"cat"` and reattached `","`, while the
stop-word token `"The"` stays plain text. -/
theorem claim4_tokenization_witness :
    renderToken "cat," = RNode.wordButton "cat" "," ∧
    renderToken "The" = RNode.text "The" := by
  have h := (claim4_tokenization "The cat, runs fast.").2
  have hc := h "cat," (by decide) (by decide)
  have ht := h "The" (by decide) (by decide)
  constructor
  · have hbtn := hc.2.2 (by decide) (by decide)
    rw [show tokenWord "cat," = "cat" from by decide,
      show tokenPunct "cat," = "," from by decide] at hbtn
    exact hbtn
  · exact ht.2.1 (Or.inr (by decide))

/-- Witness for C3: concrete instances of the used-link skip, the
no-occurrence no-op, the first-fragment first-occurrence splice (the
title `"AI"` occurs twice but only the first occurrence is replaced) and
the `findSplit` soundness and minimality. -/
theorem claim3_link_splicing_witness :
    linkStep ["u1"] [Frag.str "x AI y"] ⟨"u1", "AI"⟩ = [Frag.str "x AI y"] ∧
    embedLink ⟨"u9", "QQ"⟩ [Frag.str "x AI y"] = [Frag.str "x AI y"] ∧
    embedLink ⟨"u1", "AI"⟩
        ([Frag.anchor "t" "u0"] ++ Frag.str "x AI y AI z" :: [Frag.str "w"]) =
      [Frag.anchor "t" "u0"] ++
        embedPieces ⟨"u1", "AI"⟩ "x ".data " y AI z".data ++ [Frag.str "w"] ∧
    "x ".data ++ "AI".data ++ " y AI z".data = "x AI y AI z".data := by
  have h₁ := claim3_link_splicing [] ["u1"]
  obtain ⟨-, -, hskip, -, -, -, -⟩ := h₁
  have h := claim3_link_splicing [] []
  obtain ⟨-, -, -, hnoocc, hfirst, hsound, -⟩ := h
  refine ⟨hskip ⟨"u1", "AI"⟩ [Frag.str "x AI y"] (by decide), ?_, ?_, ?_⟩
  · apply hnoocc ⟨"u9", "QQ"⟩ [Frag.str "x AI y"]
    intro s hs
    have hs₀ : s = "x AI y" := by
      simp only [List.mem_singleton, Frag.str.injEq] at hs
      exact hs
    subst hs₀
    exact findSplit_none "QQ".data "x AI y".data (by decide)
  · apply hfirst ⟨"u1", "AI"⟩ [Frag.anchor "t" "u0"] "x AI y AI z"
      [Frag.str "w"] "x ".data " y AI z".data
    · intro t ht
      simp at ht
    · decide
  · exact (hsound "AI".data "x AI y AI z".data "x ".data " y AI z".data
      (by decide)).1

/-! ### Navigation-store invariant -/

/-- Well-formedness of a navigation state: the cursor stays within
`[-1, length - 1]`, and whenever it is non-negative the current topic is
the history entry under the cursor. -/
def NavInv (s : NavState) : Prop :=
  -1 ≤ s.historyIndex ∧
  s.historyIndex ≤ (s.history.length : Int) - 1 ∧
  (0 ≤ s.historyIndex → s.currentTopic = jsIndex s.history s.historyIndex)

theorem navInv_init : NavInv initState := by
  refine ⟨by decide, by decide, ?_⟩
  intro h
  exact absurd h (by decide)

theorem jsIndex_append_last (l : List String) (x : String) :
    jsIndex (l ++ [x]) (l.length : Int) = x := by
  unfold jsIndex
  rw [if_neg (by omega)]
  rw [show ((l.length : Int)).toNat = l.length from by omega]
  rw [List.getD_eq_getElem _ _ (by simp)]
  simp

theorem navInv_changeTopic (s : NavState) (t : String) (h : NavInv s) :
    NavInv (changeTopic s t) := by
  obtain ⟨hlo, hhi, htopic⟩ := h
  unfold changeTopic
  dsimp only
  split
  · have hlen : (jsSliceTo s.history (s.historyIndex + 1)).length =
        (s.historyIndex + 1).toNat := by
      unfold jsSliceTo
      rw [if_neg (by omega)]
      rw [List.length_take]
      have : (s.historyIndex + 1).toNat ≤ s.history.length := by omega
      omega
    refine ⟨?_, ?_, ?_⟩
    · simp only [List.length_append, List.length_cons, List.length_nil]
      omega
    · simp only [List.length_append, List.length_cons, List.length_nil]
      omega
    · intro _
      simp only [List.length_append, List.length_cons, List.length_nil]
      rw [show (((jsSliceTo s.history (s.historyIndex + 1)).length +
        (0 + 1) : Nat) : Int) - 1 =
        ((jsSliceTo s.history (s.historyIndex + 1)).length : Int) from by
          push_cast
          omega]
      exact (jsIndex_append_last _ _).symm
  · exact ⟨hlo, hhi, htopic⟩

theorem navInv_handlePrevious (s : NavState) (h : NavInv s) :
    NavInv (handlePrevious s) := by
  obtain ⟨hlo, hhi, htopic⟩ := h
  unfold handlePrevious
  split
  · rename_i hcond
    refine ⟨?_, ?_, fun _ => rfl⟩
    · show -1 ≤ s.historyIndex - 1
      omega
    · show s.historyIndex - 1 ≤ (s.history.length : Int) - 1
      omega
  · exact ⟨hlo, hhi, htopic⟩

theorem navInv_handleNext (s : NavState) (h : NavInv s) :
    NavInv (handleNext s) := by
  obtain ⟨hlo, hhi, htopic⟩ := h
  unfold handleNext
  split
  · rename_i hcond
    refine ⟨?_, ?_, fun _ => rfl⟩
    · show -1 ≤ s.historyIndex + 1
      omega
    · show s.historyIndex + 1 ≤ (s.history.length : Int) - 1
      omega
  · exact ⟨hlo, hhi, htopic⟩

theorem navInv_foldl (ops : List NavOp) :
    ∀ (s : NavState), NavInv s → NavInv (ops.foldl applyOp s) := by
  induction ops with
  | nil => intro s h; exact h
  | cons op t ih =>
    intro s h
    rw [List.foldl_cons]
    apply ih
    cases op with
    | push topic => exact navInv_changeTopic s topic h
    | back => exact navInv_handlePrevious s h
    | forward => exact navInv_handleNext s h

theorem navInv_runOps (ops : List NavOp) : NavInv (runOps ops) :=
  navInv_foldl ops initState navInv_init

/-- C5: starting from the initial state (empty history, cursor −1), after
every sequence of push, back and forward operations the cursor stays in
`[-1, length − 1]`. -/
theorem claim5_cursor_bounds (ops : List NavOp) :
    -1 ≤ (runOps ops).historyIndex ∧
    (runOps ops).historyIndex ≤ ((runOps ops).history.length : Int) - 1 :=
  ⟨(navInv_runOps ops).1, (navInv_runOps ops).2.1⟩

/-- C6: for every history state, back() is a no-op when the cursor is at
most 0 and otherwise decrements the cursor and loads the history entry
under it; forward() is a no-op when the cursor is at least length − 1 and
otherwise increments the cursor and loads the history entry under it.
Both operations are total functions: no boundary case raises an error. -/
theorem claim6_back_forward (s : NavState) :
    (s.historyIndex ≤ 0 → handlePrevious s = s) ∧
    (0 < s.historyIndex →
      (handlePrevious s).history = s.history ∧
      (handlePrevious s).historyIndex = s.historyIndex - 1 ∧
      (handlePrevious s).currentTopic = jsIndex s.history (s.historyIndex - 1)) ∧
    (((s.history.length : Int) - 1 ≤ s.historyIndex → handleNext s = s) ∧
    (s.historyIndex < (s.history.length : Int) - 1 →
      (handleNext s).history = s.history ∧
      (handleNext s).historyIndex = s.historyIndex + 1 ∧
      (handleNext s).currentTopic = jsIndex s.history (s.historyIndex + 1))) := by
  refine ⟨?_, ?_, ?_, ?_⟩
  · intro h
    unfold handlePrevious
    rw [if_neg (by omega)]
  · intro h
    unfold handlePrevious
    rw [if_pos h]
    exact ⟨rfl, rfl, rfl⟩
  · intro h
    unfold handleNext
    rw [if_neg (by omega)]
  · intro h
    unfold handleNext
    rw [if_pos h]
    exact ⟨rfl, rfl, rfl⟩

/-- Witness for C6 at concrete states: stepping back from cursor 1 in a
two-entry history, and the two boundary no-ops in a one-entry history. -/
theorem claim6_back_forward_witness :
    ((handlePrevious ⟨["a", "b"], 1, "b"⟩).history = ["a", "b"] ∧
      (handlePrevious ⟨["a", "b"], 1, "b"⟩).historyIndex = 1 - 1 ∧
      (handlePrevious ⟨["a", "b"], 1, "b"⟩).currentTopic =
        jsIndex ["a", "b"] (1 - 1)) ∧
    handlePrevious ⟨["a"], 0, "a"⟩ = ⟨["a"], 0, "a"⟩ ∧
    handleNext ⟨["a"], 0, "a"⟩ = ⟨["a"], 0, "a"⟩ ∧
    ((handleNext ⟨["a", "b"], 0, "a"⟩).historyIndex = 0 + 1) := by
  refine ⟨(claim6_back_forward ⟨["a", "b"], 1, "b"⟩).2.1 (by decide),
    (claim6_back_forward ⟨["a"], 0, "a"⟩).1 (by decide),
    (claim6_back_forward ⟨["a"], 0, "a"⟩).2.2.1 (by decide),
    ((claim6_back_forward ⟨["a", "b"], 0, "a"⟩).2.2.2 (by decide)).2.1⟩

/-- C2: pushing a topic is a no-op exactly when the trimmed topic is empty
or case-insensitively equal to the current topic; otherwise the history
entries past the cursor are discarded, the trimmed topic is appended, the
cursor moves to the new last index and the trimmed topic becomes
current. -/
theorem claim2_push (s : NavState) (t : String) :
    ((trimStr t = "" ∨ toLowerStr (trimStr t) = toLowerStr s.currentTopic) →
      changeTopic s t = s) ∧
    (trimStr t ≠ "" → toLowerStr (trimStr t) ≠ toLowerStr s.currentTopic →
      -1 ≤ s.historyIndex →
      (changeTopic s t).history =
        s.history.take (s.historyIndex + 1).toNat ++ [trimStr t] ∧
      (changeTopic s t).historyIndex =
        ((changeTopic s t).history.length : Int) - 1 ∧
      (changeTopic s t).currentTopic = trimStr t) := by
  constructor
  · intro h
    unfold changeTopic
    rw [if_neg]
    intro hcond
    obtain ⟨h1, h2⟩ := hcond
    rcases h with h0 | h0
    · exact h1 h0
    · exact h2 h0
  · intro h1 h2 h3
    have hcond : trimStr t ≠ "" ∧
        toLowerStr (trimStr t) ≠ toLowerStr s.currentTopic := ⟨h1, h2⟩
    have hslice : jsSliceTo s.history (s.historyIndex + 1) =
        s.history.take (s.historyIndex + 1).toNat := by
      unfold jsSliceTo
      rw [if_neg (by omega)]
    refine ⟨?_, ?_, ?_⟩
    · unfold changeTopic
      rw [if_pos hcond]
      rw [hslice]
    · unfold changeTopic
      rw [if_pos hcond]
    · unfold changeTopic
      rw [if_pos hcond]

/-- Witness for C2: pushing a case-variant of the current topic is a
no-op, and pushing `"D"` after navigating back to cursor 0 in a
three-entry history truncates the forward entries. -/
theorem claim2_push_witness :
    changeTopic ⟨["a"], 0, "a"⟩ " A " = ⟨["a"], 0, "a"⟩ ∧
    (changeTopic ⟨["a", "b", "c"], 0, "a"⟩ "D").history = ["a", "D"] ∧
    (changeTopic ⟨["a", "b", "c"], 0, "a"⟩ "D").historyIndex = 1 ∧
    (changeTopic ⟨["a", "b", "c"], 0, "a"⟩ "D").currentTopic = "D" := by
  have h₁ := (claim2_push ⟨["a"], 0, "a"⟩ " A ").1 (Or.inr (by decide))
  have h₂ := (claim2_push ⟨["a", "b", "c"], 0, "a"⟩ "D").2
    (by decide) (by decide) (by decide)
  obtain ⟨e1, e2, e3⟩ := h₂
  refine ⟨h₁, ?_, ?_, ?_⟩
  · rw [e1]
    decide
  · rw [e2, e1]
    decide
  · rw [e3]
    decide

/-- Counterexample to C7 as stated: the state reached by
push "a", push "b", back is reachable and at the back boundary
(cursor 0), yet back() followed by forward() yields topic "b" instead of
the pre-back topic "a", and forward() is not a no-op there — so at this
boundary state the sequence neither restores the pre-back topic nor
consists of no-ops. -/
theorem claim7_counterexample :
    (runOps [.push "a", .push "b", .back]).historyIndex = 0 ∧
    (runOps [.push "a", .push "b", .back]).currentTopic = "a" ∧
    (handleNext (handlePrevious
      (runOps [.push "a", .push "b", .back]))).currentTopic = "b" ∧
    handleNext (handlePrevious (runOps [.push "a", .push "b", .back])) ≠
      runOps [.push "a", .push "b", .back] := by
  decide

/-- C7 (amended): for every state reachable from the initial state by
push, back and forward operations, back() followed by forward() restores
the full pre-back state whenever the cursor is positive; when the cursor
is at most 0, back() alone is a no-op, and forward() is additionally a
no-op exactly when the cursor is also at the forward boundary (as it
always is for states reached by pushes alone). -/
theorem claim7_back_forward_roundtrip (ops : List NavOp) :
    (0 < (runOps ops).historyIndex →
      handleNext (handlePrevious (runOps ops)) = runOps ops) ∧
    ((runOps ops).historyIndex ≤ 0 →
      handlePrevious (runOps ops) = runOps ops ∧
      (((runOps ops).history.length : Int) - 1 ≤ (runOps ops).historyIndex →
        handleNext (runOps ops) = runOps ops)) := by
  obtain ⟨hlo, hhi, htopic⟩ := navInv_runOps ops
  constructor
  · intro h
    have hprev : handlePrevious (runOps ops) =
        ⟨(runOps ops).history, (runOps ops).historyIndex - 1,
          jsIndex (runOps ops).history ((runOps ops).historyIndex - 1)⟩ := by
      unfold handlePrevious
      rw [if_pos h]
    rw [hprev]
    unfold handleNext
    rw [if_pos (by dsimp only; omega)]
    dsimp only
    rw [show (runOps ops).historyIndex - 1 + 1 = (runOps ops).historyIndex
      from by omega]
    rw [← htopic (by omega)]
  · intro h
    have hprev : handlePrevious (runOps ops) = runOps ops := by
      unfold handlePrevious
      rw [if_neg (by omega)]
    refine ⟨hprev, ?_⟩
    intro h₂
    unfold handleNext
    rw [if_neg (by omega)]

/-- Witness for C7 (amended): a concrete back-and-forward round trip from
cursor 1, and the boundary no-ops in a single-push history. -/
theorem claim7_back_forward_roundtrip_witness :
    handleNext (handlePrevious (runOps [.push "a", .push "b"])) =
      runOps [.push "a", .push "b"] ∧
    handlePrevious (runOps [.push "a"]) = runOps [.push "a"] ∧
    handleNext (runOps [.push "a"]) = runOps [.push "a"] := by
  have h₁ := (claim7_back_forward_roundtrip [.push "a", .push "b"]).1 (by decide)
  have h₂ := (claim7_back_forward_roundtrip [.push "a"]).2 (by decide)
  exact ⟨h₁, h₂.1, h₂.2 (by decide)⟩

/-! ### Fallback-art properties -/

/-- Newline count of a string. -/
def countNl (s : String) : Nat :=
  (s.data.filter (fun c => c = '\n')).length

theorem countNl_append (s t : String) :
    countNl (s ++ t) = countNl s + countNl t := by
  unfold countNl
  rw [String.data_append, List.filter_append, List.length_append]

theorem countNl_strRepeat (n : Nat) : countNl (strRepeat '─' n) = 0 := by
  induction n with
  | zero => rfl
  | succ k ih =>
    unfold strRepeat countNl at ih ⊢
    rw [List.replicate_succ]
    simp only [List.filter_cons]
    rw [if_neg (by decide)]
    exact ih

theorem countNl_displayableTopic (topic : String) (h : '\n' ∉ topic.data) :
    countNl (displayableTopic topic) = 0 := by
  unfold countNl displayableTopic
  split
  · rw [show (String.mk (topic.data.take 17) ++ "...").data =
      topic.data.take 17 ++ "...".data from String.data_append _ _]
    rw [List.filter_append, List.length_append]
    have h₁ : (topic.data.take 17).filter (fun c => c = '\n') = [] := by
      rw [List.filter_eq_nil_iff]
      intro c hc
      have : c ∈ topic.data := List.mem_of_mem_take hc
      simp only [decide_eq_true_eq]
      intro he
      subst he
      exact h this
    rw [h₁]
    rfl
  · rw [List.filter_eq_nil_iff.mpr]
    · rfl
    · intro c hc
      simp only [decide_eq_true_eq]
      intro he
      subst he
      exact h hc

/-- C8: for every topic, the fallback art is the 3-line box whose middle
line is the truncated topic padded with one space on each side between
vertical bars, whose borders carry exactly `length + 2` dashes (the
length of the padded topic) between the corners `┌┐└┘`, whose truncation
cuts to 17 characters plus `"..."` exactly when the topic exceeds 20
characters, and which contains exactly two newlines (three lines) when
the topic itself has none. -/
theorem claim8_fallback_art (topic : String) :
    createFallbackArt topic =
      "┌" ++ strRepeat '─' ((displayableTopic topic).length + 2) ++ "┐" ++
        "\n" ++ "│ " ++ displayableTopic topic ++ " │" ++ "\n" ++
        "└" ++ strRepeat '─' ((displayableTopic topic).length + 2) ++ "┘" ∧
    ('\n' ∉ topic.data → countNl (createFallbackArt topic) = 2) ∧
    (20 < topic.length →
      displayableTopic topic = String.mk (topic.data.take 17) ++ "...") ∧
    (¬ 20 < topic.length → displayableTopic topic = topic) := by
  have hpad : (" " ++ displayableTopic topic ++ " ").length =
      (displayableTopic topic).length + 2 := by
    rw [String.length_append, String.length_append]
    have h1 : (" " : String).length = 1 := rfl
    omega
  have hart : createFallbackArt topic =
      "┌" ++ strRepeat '─' ((displayableTopic topic).length + 2) ++ "┐" ++
        "\n" ++ "│ " ++ displayableTopic topic ++ " │" ++ "\n" ++
        "└" ++ strRepeat '─' ((displayableTopic topic).length + 2) ++ "┘" := by
    unfold createFallbackArt
    dsimp only
    rw [hpad]
    apply String.ext
    simp [String.data_append]
  refine ⟨hart, ?_, ?_, ?_⟩
  · intro h
    rw [hart]
    repeat rw [countNl_append]
    rw [countNl_strRepeat, countNl_displayableTopic topic h]
    rfl
  · intro h
    unfold displayableTopic
    rw [if_pos h]
  · intro h
    unfold displayableTopic
    rw [if_neg h]

/-- Witness for C8 at the topic `"Entropy"`: the box has 9 dashes
(`len(" Entropy ")`) per border and exactly two newlines. -/
theorem claim8_fallback_art_witness :
    createFallbackArt "Entropy" = "┌─────────┐\n│ Entropy │\n└─────────┘" ∧
    countNl (createFallbackArt "Entropy") = 2 := by
  have h := claim8_fallback_art "Entropy"
  refine ⟨?_, h.2.1 (by decide)⟩
  rw [h.1]
  decide

/-! ### Structured-answer validation -/

/-- Counterexample to C9 as stated: a parsed response with non-empty
explanation and suggestion but an empty links array — which violates the
required 3–5-link shape — is accepted by the validation of
`getStructuredAnswer` instead of being treated as a hard failure. -/
theorem claim9_counterexample :
    validateStructuredAnswer ⟨some "expl", some "sugg", some []⟩ =
      .ok ⟨"expl", "sugg", []⟩ ∧
    ¬ (3 ≤ ([] : List Link).length ∧ ([] : List Link).length ≤ 5) := by
  exact ⟨rfl, by decide⟩

/-- C9 (amended): the validation of `getStructuredAnswer` rejects a parsed
response exactly when the explanation is missing or empty, the suggestion
is missing or empty, or the links field is not an array; the number of
links (the 3–5 range) and the fields of the individual links are not
validated. -/
theorem claim9_validation (p : ParsedAnswer) :
    (∃ e, validateStructuredAnswer p = .error e) ↔
      (p.explanation = none ∨ p.explanation = some "" ∨
       p.suggestion = none ∨ p.suggestion = some "" ∨ p.links = none) := by
  have hfal : ∀ o : Option String, jsFalsyStr o = true ↔ (o = none ∨ o = some "") := by
    intro o
    cases o with
    | none => simp [jsFalsyStr]
    | some s => simp [jsFalsyStr]
  constructor
  · rintro ⟨e, he⟩
    unfold validateStructuredAnswer at he
    split at he
    · rename_i hcond
      simp only [Bool.or_eq_true, Option.isNone_iff_eq_none] at hcond
      rcases hcond with (hc | hc) | hc
      · rcases (hfal _).mp hc with h | h
        · exact Or.inl h
        · exact Or.inr (Or.inl h)
      · rcases (hfal _).mp hc with h | h
        · exact Or.inr (Or.inr (Or.inl h))
        · exact Or.inr (Or.inr (Or.inr (Or.inl h)))
      · exact Or.inr (Or.inr (Or.inr (Or.inr hc)))
    · cases he
  · intro h
    unfold validateStructuredAnswer
    have hcond : (jsFalsyStr p.explanation || jsFalsyStr p.suggestion ||
        p.links.isNone) = true := by
      simp only [Bool.or_eq_true, Option.isNone_iff_eq_none]
      rcases h with h | h | h | h | h
      · exact Or.inl (Or.inl ((hfal _).mpr (Or.inl h)))
      · exact Or.inl (Or.inl ((hfal _).mpr (Or.inr h)))
      · exact Or.inl (Or.inr ((hfal _).mpr (Or.inl h)))
      · exact Or.inl (Or.inr ((hfal _).mpr (Or.inr h)))
      · exact Or.inr h
    rw [if_pos hcond]
    exact ⟨_, rfl⟩

/-- Witness for C9 (amended): an empty explanation string is rejected,
while an empty links array (with non-empty text fields) is accepted. -/
theorem claim9_validation_witness :
    (∃ e, validateStructuredAnswer ⟨some "", some "y", some []⟩ = .error e) ∧
    ¬ (∃ e, validateStructuredAnswer ⟨some "x", some "y", some []⟩ = .error e) := by
  constructor
  · exact (claim9_validation ⟨some "", some "y", some []⟩).mpr
      (Or.inr (Or.inl rfl))
  · intro hex
    have h := (claim9_validation ⟨some "x", some "y", some []⟩).mp hex
    simp at h

/-! ### Random-topic facts -/

set_option maxRecDepth 10000 in
/-- The predefined word list has no exact duplicates, so the set
construction leaves it unchanged. -/
theorem uniqueWords_eq : UNIQUE_WORDS = PREDEFINED_WORDS := by
  decide

set_option maxRecDepth 10000 in
/-- The unique words are pairwise distinct even case-insensitively. -/
theorem uniqueWords_lower_nodup : (UNIQUE_WORDS.map toLowerStr).Nodup := by
  rw [uniqueWords_eq]
  decide

set_option maxRecDepth 10000 in
/-- Every unique word is non-empty and already trimmed. -/
theorem uniqueWords_clean :
    UNIQUE_WORDS.all (fun w => trimStr w == w && !(w == "")) = true := by
  rw [uniqueWords_eq]
  decide

set_option maxRecDepth 10000 in
theorem uniqueWords_two_le : 2 ≤ UNIQUE_WORDS.length := by
  rw [uniqueWords_eq]
  decide

/-- Distinct indices into a list whose image under `f` has no duplicates
give `f`-distinct elements. -/
theorem nodup_map_getD_ne (f : String → String) (l : List String)
    (hnd : (l.map f).Nodup) (j k : Nat) (hj : j < l.length)
    (hk : k < l.length) (hne : j ≠ k) :
    f (l.getD j "") ≠ f (l.getD k "") := by
  intro heq
  apply hne
  have hj2 : j < (l.map f).length := by simpa using hj
  have hk2 : k < (l.map f).length := by simpa using hk
  have h1 : (l.map f).get ⟨j, hj2⟩ = (l.map f).get ⟨k, hk2⟩ := by
    rw [List.get_map, List.get_map]
    rw [List.getD_eq_getElem _ _ hj, List.getD_eq_getElem _ _ hk] at heq
    simpa [List.get_eq_getElem] using heq
  have h2 := List.nodup_iff_injective_get.mp hnd h1
  exact congrArg Fin.val h2

/-- In a list whose lower-cased image has no duplicates, searching for the
first element with the same image as the element at index `i` finds `i`
itself. -/
theorem findIdx?_map_nodup (f : String → String) :
    ∀ (l : List String) (i : Nat), i < l.length → (l.map f).Nodup →
    l.findIdx? (fun w => f w == f (l.getD i "")) = some i := by
  intro l
  induction l with
  | nil =>
    intro i hi _
    exact absurd hi (by simp)
  | cons a t ih =>
    intro i hi hnd
    rw [List.map_cons] at hnd
    have hnd₂ : (t.map f).Nodup := (List.nodup_cons.mp hnd).2
    have hnotmem : f a ∉ t.map f := (List.nodup_cons.mp hnd).1
    cases i with
    | zero =>
      rw [List.findIdx?_cons, if_pos]
      simp [List.getD_cons_zero]
    | succ j =>
      have hj : j < t.length := by simpa using hi
      rw [show (a :: t).getD (j + 1) "" = t.getD j "" from
        List.getD_cons_succ ..]
      rw [List.findIdx?_cons, if_neg, List.findIdx?_succ, ih j hj hnd₂]
      · rfl
      · intro hbeq
        have heq : f a = f (t.getD j "") := eq_of_beq hbeq
        have hmem : t.getD j "" ∈ t := by
          rw [List.getD_eq_getElem _ _ hj]
          exact List.getElem_mem hj
        exact hnotmem (heq ▸ List.mem_map_of_mem f hmem)

theorem jsFindIndex_eq (p : String → Bool) (l : List String) (k : Nat)
    (h : l.findIdx? p = some k) : jsFindIndex p l = (k : Int) := by
  unfold jsFindIndex
  rw [h]

/-- C10: for every current topic and every random draw, the selected word
is one of the unique predefined words and differs case-insensitively from
the current topic (falling back cyclically to the word after the first
case-insensitive occurrence of the drawn word when the draw matches the
topic), so `changeTopic` always performs a real push: the word becomes
current, it is appended after the entries up to the cursor, and the state
changes. -/
theorem claim10_random_topic (i : Nat) (s : NavState)
    (hi : i < UNIQUE_WORDS.length) :
    handleRandomWord i s.currentTopic ∈ UNIQUE_WORDS ∧
    toLowerStr (handleRandomWord i s.currentTopic) ≠
      toLowerStr s.currentTopic ∧
    (changeTopic s (handleRandomWord i s.currentTopic)).currentTopic =
      handleRandomWord i s.currentTopic ∧
    (changeTopic s (handleRandomWord i s.currentTopic)).history =
      jsSliceTo s.history (s.historyIndex + 1) ++
        [handleRandomWord i s.currentTopic] ∧
    changeTopic s (handleRandomWord i s.currentTopic) ≠ s := by
  have hclean : ∀ w ∈ UNIQUE_WORDS, trimStr w = w ∧ w ≠ "" := by
    intro w hw
    have h0 := List.all_eq_true.mp uniqueWords_clean w hw
    simp only [Bool.and_eq_true, beq_iff_eq, Bool.not_eq_eq_eq_not,
      Bool.not_true, beq_eq_false_iff_ne] at h0
    exact h0
  have hmain : handleRandomWord i s.currentTopic ∈ UNIQUE_WORDS ∧
      toLowerStr (handleRandomWord i s.currentTopic) ≠
        toLowerStr s.currentTopic := by
    unfold handleRandomWord
    dsimp only
    split
    · rename_i hcase
      have hfind := findIdx?_map_nodup toLowerStr UNIQUE_WORDS i hi
        uniqueWords_lower_nodup
      rw [jsFindIndex_eq _ _ _ hfind]
      have hn : 0 < UNIQUE_WORDS.length := by omega
      rw [show (((i : Int) + 1) % (UNIQUE_WORDS.length : Int)).toNat =
        (i + 1) % UNIQUE_WORDS.length from by
          rw [show ((i : Int) + 1) = ((i + 1 : Nat) : Int) from by omega,
            ← Int.natCast_mod]
          exact Int.toNat_ofNat _]
      have hj : (i + 1) % UNIQUE_WORDS.length < UNIQUE_WORDS.length :=
        Nat.mod_lt _ hn
      have hji : (i + 1) % UNIQUE_WORDS.length ≠ i := by
        have h2 := uniqueWords_two_le
        rcases Nat.lt_or_ge (i + 1) UNIQUE_WORDS.length with hlt | hge
        · rw [Nat.mod_eq_of_lt hlt]; omega
        · have he : i + 1 = UNIQUE_WORDS.length := by omega
          rw [he, Nat.mod_self]; omega
      refine ⟨?_, ?_⟩
      · rw [List.getD_eq_getElem _ _ hj]
        exact List.getElem_mem hj
      · rw [← hcase]
        exact nodup_map_getD_ne toLowerStr UNIQUE_WORDS
          uniqueWords_lower_nodup _ i hj hi hji
    · rename_i hcase
      refine ⟨?_, hcase⟩
      rw [List.getD_eq_getElem _ _ hi]
      exact List.getElem_mem hi
  obtain ⟨hmem, hne⟩ := hmain
  obtain ⟨htrim, hnemp⟩ := hclean _ hmem
  have hcond : trimStr (handleRandomWord i s.currentTopic) ≠ "" ∧
      toLowerStr (trimStr (handleRandomWord i s.currentTopic)) ≠
        toLowerStr s.currentTopic := by
    rw [htrim]
    exact ⟨hnemp, hne⟩
  have hcur : (changeTopic s (handleRandomWord i s.currentTopic)).currentTopic =
      handleRandomWord i s.currentTopic := by
    unfold changeTopic
    dsimp only
    rw [if_pos hcond]
    exact htrim
  refine ⟨hmem, hne, hcur, ?_, ?_⟩
  · unfold changeTopic
    dsimp only
    rw [if_pos hcond, htrim]
  · intro h0
    apply hne
    rw [← hcur, h0]

set_option maxRecDepth 10000 in
/-- Witness for C10: with the drawn index 0 and current topic
`"balance"`, the draw `"Balance"` matches the topic case-insensitively,
so the next word `"Harmony"` is selected and genuinely pushed. -/
theorem claim10_random_topic_witness :
    0 < UNIQUE_WORDS.length ∧
    handleRandomWord 0 "balance" = "Harmony" ∧
    toLowerStr (handleRandomWord 0 "balance") ≠ toLowerStr "balance" ∧
    changeTopic ⟨["balance"], 0, "balance"⟩ (handleRandomWord 0 "balance") ≠
      ⟨["balance"], 0, "balance"⟩ := by
  have hlt : 0 < UNIQUE_WORDS.length :=
    Nat.lt_of_lt_of_le (by decide) uniqueWords_two_le
  have h := claim10_random_topic 0 ⟨["balance"], 0, "balance"⟩ hlt
  exact ⟨hlt, by decide, h.2.1, h.2.2.2.2⟩
